import Mathlib

/-!
Shallow embedding of the derived-variable pipeline of `temp2.py`
(class `HorseRacingVariableCreator` and its driver
`compute_derived_variables`), together with theorems checking the
natural-language specification against it.

Modelling conventions:
* `date` is the proleptic day ordinal of a `datetime.date`, an `Int`;
  `(a - b).days` becomes integer subtraction.
* Python `float` results of `numpy.log1p` / `numpy.sqrt` are modelled
  symbolically by the inductive type `PyFloat` (the kernel has no IEEE
  semantics for the transcendental calls); the exact-ratio results of
  `count / n` are modelled by `Rat`.
* A Python exception (ZeroDivisionError, IndexError) is modelled by
  `none`; a creator that returns normally yields `some` of the updated
  record (the source mutates `race_stats` in place, which sequential
  record updates model).
* `list.sort(key=...)` is a stable sort by key; it is modelled by a
  stable insertion sort (`sortLE`), which agrees with every stable sort
  using the same comparator.  The in-place reordering of the caller's
  list is modelled by returning the sorted list as the first component
  of `compute_derived_variables`.
-/

/-- Raw participation record (`class Race` of `temp2.py`): one horse's
involvement in one race.  Fields the pipeline never computes with are
kept as opaque strings. -/
structure Race where
  horse_id : String
  race_index : Int
  date : Int
  season : String
  racecourse : String
  track : String
  course : String
  dist : String
  g : String
  race_class : String
  dr : String
  rtg : String
  trainer : String
  jockey : String
  act_wt : String
  declar_horse_wt : String
  gear : String
  pla : String
  lbw : String
  running_position : String
  finish_time : String
  win_odds : String
deriving DecidableEq, Repr

/-- Symbolic model of a Python float produced by the pipeline: either a
literal rational value (defaults) or one of the two `numpy` transforms
applied to an integer day count. -/
inductive PyFloat where
  | lit : Rat → PyFloat
  | log1p : Int → PyFloat
  | sqrt : Int → PyFloat
deriving DecidableEq, Repr

/-- Enriched record (`class RaceWithStats`): the raw record plus the
derived statistic fields, each starting at its default value from
`RaceWithStats.__init__`. -/
structure RaceWithStats extends Race where
  num_races_run : Nat := 0
  num_races_top1 : Nat := 0
  num_races_top2 : Nat := 0
  num_races_top3 : Nat := 0
  percent_races_top1 : Rat := 0
  percent_races_top2 : Rat := 0
  percent_races_top3 : Rat := 0
  num_races_run_seasonal : Nat := 0
  days_since_last_run : Int := 0
  days_since_last_run_log : PyFloat := .lit 0
  days_since_last_run_sqrt : PyFloat := .lit 0
  jokey_num_races_run : Nat := 0
deriving DecidableEq, Repr

/-- Constructor `RaceWithStats(original)`: copy the raw fields, set every derived
statistic to its default. -/
def RaceWithStats.mkDefault (r : Race) : RaceWithStats := { toRace := r }

namespace HorseRacingVariableCreator

/-- Creator `_compute_num_races_run`: count total races run and top placements
before the current race.  `Counter(race.pla for race in prior_races if
race.pla in {"01","02","03"})` gives the exact-code placement counts;
dividing by `len(prior_races)` raises `ZeroDivisionError` (`none`) when
the history is empty. -/
def _compute_num_races_run (race_stats : RaceWithStats) (prior_races : List Race) :
    Option RaceWithStats :=
  let c1 := prior_races.countP (fun race => race.pla = "01")
  let c2 := prior_races.countP (fun race => race.pla = "02")
  let c3 := prior_races.countP (fun race => race.pla = "03")
  let num_races_run := prior_races.length
  if num_races_run = 0 then none
  else some { race_stats with
    num_races_run := num_races_run
    num_races_top1 := c1
    num_races_top2 := c1 + c2
    num_races_top3 := c1 + c2 + c3
    percent_races_top1 := (c1 : Rat) / (num_races_run : Rat)
    percent_races_top2 := ((c1 : Rat) + (c2 : Rat)) / (num_races_run : Rat)
    percent_races_top3 := ((c1 : Rat) + (c2 : Rat) + (c3 : Rat)) / (num_races_run : Rat) }

/-- Creator `_compute_num_races_run_seasonal`: races in the prior history whose
season equals the current record's season. -/
def _compute_num_races_run_seasonal (race_stats : RaceWithStats) (prior_races : List Race) :
    Option RaceWithStats :=
  some { race_stats with
    num_races_run_seasonal := prior_races.countP (fun race => race.season = race_stats.season) }

/-- Creator `_compute_days_since_last_run`: days between the current date and the
date of `prior_races[-1]`; indexing an empty list raises `IndexError`
(`none`).  The two float transforms are recorded symbolically. -/
def _compute_days_since_last_run (race_stats : RaceWithStats) (prior_races : List Race) :
    Option RaceWithStats :=
  match prior_races.getLast? with
  | none => none
  | some prev =>
    let days_since_last_run := race_stats.date - prev.date
    some { race_stats with
      days_since_last_run := days_since_last_run
      days_since_last_run_log := .log1p days_since_last_run
      days_since_last_run_sqrt := .sqrt days_since_last_run }

/-- Creator `_compute_jockey_num_races_run`: races in the jockey's prior history
whose season equals the current record's season. -/
def _compute_jockey_num_races_run (race_stats : RaceWithStats) (prior_races : List Race) :
    Option RaceWithStats :=
  some { race_stats with
    jokey_num_races_run := prior_races.countP (fun race => race.season = race_stats.season) }

/-- The registered horse-scoped variable creators, in registration
order (`self.variable_creators`). -/
def variable_creators : List (RaceWithStats → List Race → Option RaceWithStats) :=
  [_compute_num_races_run, _compute_num_races_run_seasonal, _compute_days_since_last_run]

/-- The registered jockey-scoped variable creators
(`self.jockey_variable_creators`). -/
def jockey_variable_creators : List (RaceWithStats → List Race → Option RaceWithStats) :=
  [_compute_jockey_num_races_run]

/-- One pass of `for func in creators: ... if prior_races: func(race_stats,
prior_races)`: each creator is invoked only when the history is
non-empty, and mutations are threaded through. -/
def runCreators (creators : List (RaceWithStats → List Race → Option RaceWithStats))
    (race_stats : RaceWithStats) (prior_races : List Race) : Option RaceWithStats :=
  match creators with
  | [] => some race_stats
  | f :: rest =>
    match (if prior_races.isEmpty then some race_stats else f race_stats prior_races) with
    | none => none
    | some rs => runCreators rest rs prior_races

end HorseRacingVariableCreator

/-- Python tuple comparison `(a.date, a.race_index) <= (b.date,
b.race_index)`: the lexicographic sort key of the driver. -/
def raceKeyLE (a b : Race) : Bool :=
  a.date < b.date || (a.date = b.date && a.race_index ≤ b.race_index)

/-- Strict version of the sort key: `a` is strictly earlier than `b`. -/
def raceKeyLT (a b : Race) : Bool :=
  a.date < b.date || (a.date = b.date && a.race_index < b.race_index)

/-- Insert an element into a list, after every element `le`-before-or-equal
to it (the stable insertion step). -/
def insertLE {α : Type} (le : α → α → Bool) (r : α) : List α → List α
  | [] => [r]
  | x :: xs => if le x r then x :: insertLE le r xs else r :: x :: xs

/-- Stable insertion sort: the model of Python's stable `list.sort`. -/
def sortLE {α : Type} (le : α → α → Bool) (l : List α) : List α :=
  l.foldl (fun acc r => insertLE le r acc) []

/-- Model of `all_races.sort(key=lambda r: (r.date, r.race_index))`. -/
def sortRaces (l : List Race) : List Race := sortLE raceKeyLE l

/-- Pointwise append to a `defaultdict(list)`:
`m[k].append(v)` with missing keys reading as `[]`. -/
def mapAppend {κ : Type} [DecidableEq κ] {β : Type}
    (m : κ → List β) (k : κ) (v : β) : κ → List β :=
  fun k2 => if k2 = k then m k2 ++ [v] else m k2

/-- The driver's mutable state: the two per-entity history maps, the
race-group map, and the output accumulator `enhanced_races`. -/
structure DriverState where
  horse_races_map : String → List Race
  jockey_races_map : String → List Race
  race_group_map : Int × Int → List RaceWithStats
  enhanced_races : List RaceWithStats

/-- The state at the top of `compute_derived_variables`: empty
defaultdicts and an empty output list. -/
def DriverState.empty : DriverState :=
  ⟨fun _ => [], fun _ => [], fun _ => [], []⟩

namespace HorseRacingVariableCreator

/-- One iteration of the driver loop: build the enriched record with
defaults, run the horse-scoped creators on the horse history, the
jockey-scoped creators on the jockey history, then (only afterwards)
append the raw record to both histories and the enriched record to its
race group.  The freshly built enriched record is returned alongside the
next state. -/
def processRace (s : DriverState) (race : Race) : Option (RaceWithStats × DriverState) := do
  let race_stats := RaceWithStats.mkDefault race
  let race_stats ← runCreators variable_creators race_stats
    (s.horse_races_map race_stats.horse_id)
  let race_stats ← runCreators jockey_variable_creators race_stats
    (s.jockey_races_map race_stats.jockey)
  some (race_stats,
    { horse_races_map := mapAppend s.horse_races_map race.horse_id race
      jockey_races_map := mapAppend s.jockey_races_map race.jockey race
      race_group_map :=
        mapAppend s.race_group_map (race_stats.date, race_stats.race_index) race_stats
      enhanced_races := s.enhanced_races })

/-- The driver loop over the (already sorted) record list, collecting the
enriched record of every iteration together with the final state. -/
def enrichAll (s : DriverState) : List Race → Option (List RaceWithStats × DriverState)
  | [] => some ([], s)
  | race :: rest => do
    let (rs, s2) ← processRace s race
    let (l, sf) ← enrichAll s2 rest
    some (rs :: l, sf)

/-- Driver `compute_derived_variables`: sort the caller's list in place by
`(date, race_index)`, replay it through the loop, and return
`enhanced_races` — which the loop never appends to.  The first component
is the caller's list after the in-place sort. -/
def compute_derived_variables (all_races : List Race) :
    Option (List Race × List RaceWithStats) :=
  let sorted := sortRaces all_races
  match enrichAll DriverState.empty sorted with
  | none => none
  | some (_, s) => some (sorted, s.enhanced_races)

/-- The stream of enriched records the loop actually builds (they are
retained in `race_group_map` but never returned). -/
def enrichedTrace (all_races : List Race) : Option (List RaceWithStats) :=
  (enrichAll DriverState.empty (sortRaces all_races)).map Prod.fst

end HorseRacingVariableCreator

/-! ## Total mirrors of the driver

The creators only fail on an empty history, and the driver guards every
invocation with `if prior_races:`; the following total functions mirror
one loop iteration exactly, which `processRace_eq` proves. -/

namespace HorseRacingVariableCreator

/-- Closed form of the three horse-scoped creators on a non-empty
history `a :: l`. -/
def horseStats (rs : RaceWithStats) (a : Race) (l : List Race) : RaceWithStats :=
  let c1 := (a :: l).countP (fun race => race.pla = "01")
  let c2 := (a :: l).countP (fun race => race.pla = "02")
  let c3 := (a :: l).countP (fun race => race.pla = "03")
  let n := (a :: l).length
  let d := rs.date - ((a :: l).getLast (List.cons_ne_nil a l)).date
  { rs with
    num_races_run := n
    num_races_top1 := c1
    num_races_top2 := c1 + c2
    num_races_top3 := c1 + c2 + c3
    percent_races_top1 := (c1 : Rat) / (n : Rat)
    percent_races_top2 := ((c1 : Rat) + (c2 : Rat)) / (n : Rat)
    percent_races_top3 := ((c1 : Rat) + (c2 : Rat) + (c3 : Rat)) / (n : Rat)
    num_races_run_seasonal := (a :: l).countP (fun race => race.season = rs.season)
    days_since_last_run := d
    days_since_last_run_log := .log1p d
    days_since_last_run_sqrt := .sqrt d }

/-- Guarded application of the horse-scoped creators. -/
def applyHorse (rs : RaceWithStats) : List Race → RaceWithStats
  | [] => rs
  | a :: l => horseStats rs a l

/-- Guarded application of the jockey-scoped creators. -/
def applyJockey (rs : RaceWithStats) : List Race → RaceWithStats
  | [] => rs
  | a :: l => { rs with jokey_num_races_run := (a :: l).countP (fun race => race.season = rs.season) }

theorem runCreators_nil_history (creators : List (RaceWithStats → List Race → Option RaceWithStats))
    (rs : RaceWithStats) : runCreators creators rs [] = some rs := by
  induction creators with
  | nil => rfl
  | cons f rest ih => simp [runCreators, ih]

theorem runCreators_variable_creators_eq (rs : RaceWithStats) (H : List Race) :
    runCreators variable_creators rs H = some (applyHorse rs H) := by
  cases H with
  | nil => exact runCreators_nil_history _ rs
  | cons a l =>
    simp only [variable_creators, runCreators, List.isEmpty_cons, Bool.false_eq_true,
      if_false, _compute_num_races_run, _compute_num_races_run_seasonal,
      _compute_days_since_last_run, List.length_cons, Nat.succ_ne_zero, if_false,
      List.getLast?_eq_getLast_of_ne_nil (List.cons_ne_nil a l)]
    rfl

theorem runCreators_jockey_variable_creators_eq (rs : RaceWithStats) (H : List Race) :
    runCreators jockey_variable_creators rs H = some (applyJockey rs H) := by
  cases H with
  | nil => exact runCreators_nil_history _ rs
  | cons a l =>
    simp only [jockey_variable_creators, runCreators, List.isEmpty_cons, Bool.false_eq_true,
      if_false, _compute_jockey_num_races_run]
    rfl

@[simp] theorem horseStats_toRace (rs : RaceWithStats) (a : Race) (l : List Race) :
    (horseStats rs a l).toRace = rs.toRace := rfl

@[simp] theorem applyHorse_toRace (rs : RaceWithStats) (H : List Race) :
    (applyHorse rs H).toRace = rs.toRace := by cases H <;> rfl

@[simp] theorem applyJockey_toRace (rs : RaceWithStats) (H : List Race) :
    (applyJockey rs H).toRace = rs.toRace := by cases H <;> rfl

@[simp] theorem mkDefault_toRace (r : Race) : (RaceWithStats.mkDefault r).toRace = r := rfl

/-- The enriched record one loop iteration builds, as a pure function of
the two histories it was handed and the raw record. -/
def enrichPure (horse_prior jockey_prior : List Race) (race : Race) : RaceWithStats :=
  applyJockey (applyHorse (RaceWithStats.mkDefault race) horse_prior) jockey_prior

/-- The enriched record built from driver state `s` for `race`. -/
def enrichStats (s : DriverState) (race : Race) : RaceWithStats :=
  enrichPure (s.horse_races_map race.horse_id) (s.jockey_races_map race.jockey) race

/-- The driver state after one loop iteration. -/
def stepState (s : DriverState) (race : Race) : DriverState :=
  { horse_races_map := mapAppend s.horse_races_map race.horse_id race
    jockey_races_map := mapAppend s.jockey_races_map race.jockey race
    race_group_map :=
      mapAppend s.race_group_map (race.date, race.race_index) (enrichStats s race)
    enhanced_races := s.enhanced_races }

theorem processRace_eq (s : DriverState) (race : Race) :
    processRace s race = some (enrichStats s race, stepState s race) := by
  simp only [processRace, runCreators_variable_creators_eq,
    runCreators_jockey_variable_creators_eq, Option.bind_eq_bind, Option.some_bind,
    enrichStats, stepState, enrichPure, mkDefault_toRace, applyHorse_toRace,
    applyJockey_toRace]

/-- The driver state after replaying a whole list. -/
def runState (s : DriverState) (l : List Race) : DriverState := l.foldl stepState s

/-- The stream of enriched records built while replaying a list from
state `s`. -/
def traceFrom (s : DriverState) : List Race → List RaceWithStats
  | [] => []
  | race :: rest => enrichStats s race :: traceFrom (stepState s race) rest

theorem enrichAll_eq (l : List Race) : ∀ s : DriverState,
    enrichAll s l = some (traceFrom s l, runState s l) := by
  induction l with
  | nil => intro s; rfl
  | cons race rest ih =>
    intro s
    simp [enrichAll, processRace_eq, ih, traceFrom, runState, List.foldl_cons]

theorem compute_derived_variables_eq (all_races : List Race) :
    compute_derived_variables all_races =
      some (sortRaces all_races, (runState DriverState.empty (sortRaces all_races)).enhanced_races) := by
  simp [compute_derived_variables, enrichAll_eq]

theorem enrichedTrace_eq (all_races : List Race) :
    enrichedTrace all_races = some (traceFrom DriverState.empty (sortRaces all_races)) := by
  simp [enrichedTrace, enrichAll_eq]

/-- The accumulator `enhanced_races` is never appended to: it survives every iteration
unchanged. -/
theorem runState_enhanced_races (l : List Race) : ∀ s : DriverState,
    (runState s l).enhanced_races = s.enhanced_races := by
  induction l with
  | nil => intro s; rfl
  | cons race rest ih => intro s; simpa [runState, List.foldl_cons, stepState] using ih _

/-- Closed form of the horse-history map: everything processed so far
with the matching horse id, in processing order. -/
theorem runState_horse_map (l : List Race) : ∀ (s : DriverState) (h : String),
    (runState s l).horse_races_map h =
      s.horse_races_map h ++ l.filter (fun r => r.horse_id = h) := by
  induction l with
  | nil => intro s h; simp [runState]
  | cons race rest ih =>
    intro s h
    rw [runState, List.foldl_cons, show List.foldl stepState (stepState s race) rest =
      runState (stepState s race) rest from rfl, ih]
    by_cases hx : race.horse_id = h
    · simp [stepState, mapAppend, hx, List.filter_cons]
    · simp [stepState, mapAppend, hx, List.filter_cons, Ne.symm hx]

/-- Closed form of the jockey-history map. -/
theorem runState_jockey_map (l : List Race) : ∀ (s : DriverState) (h : String),
    (runState s l).jockey_races_map h =
      s.jockey_races_map h ++ l.filter (fun r => r.jockey = h) := by
  induction l with
  | nil => intro s h; simp [runState]
  | cons race rest ih =>
    intro s h
    rw [runState, List.foldl_cons, show List.foldl stepState (stepState s race) rest =
      runState (stepState s race) rest from rfl, ih]
    by_cases hx : race.jockey = h
    · simp [stepState, mapAppend, hx, List.filter_cons]
    · simp [stepState, mapAppend, hx, List.filter_cons, Ne.symm hx]

theorem traceFrom_length (l : List Race) : ∀ s, (traceFrom s l).length = l.length := by
  induction l with
  | nil => intro s; rfl
  | cons race rest ih => intro s; simp [traceFrom, ih]

/-- The `i`-th enriched record is a function of the `i`-th sorted record
and the state reached after the strictly earlier records alone. -/
theorem traceFrom_getElem (l : List Race) : ∀ (s : DriverState) (i : Nat) (hi : i < l.length),
    (traceFrom s l)[i]? = some (enrichStats (runState s (l.take i)) (l.get ⟨i, hi⟩)) := by
  induction l with
  | nil => intro s i hi; exact absurd hi (Nat.not_lt_zero i)
  | cons race rest ih =>
    intro s i hi
    cases i with
    | zero => simp [traceFrom, runState]
    | succ j =>
      have hj : j < rest.length := Nat.lt_of_succ_lt_succ hi
      simp only [traceFrom, List.getElem?_cons_succ, List.take_succ_cons, List.get_cons_succ]
      rw [ih (stepState s race) j hj]
      rfl

end HorseRacingVariableCreator

/-! ## Properties of the stable insertion sort -/

theorem mem_insertLE {α : Type} (le : α → α → Bool) (r x : α) :
    ∀ l : List α, x ∈ insertLE le r l ↔ x = r ∨ x ∈ l := by
  intro l
  induction l with
  | nil => simp [insertLE]
  | cons y ys ih =>
    by_cases h : le y r
    · simp only [insertLE, h, if_true, List.mem_cons, ih]
      tauto
    · simp only [insertLE, h, Bool.false_eq_true, if_false, List.mem_cons]

theorem insertLE_perm {α : Type} (le : α → α → Bool) (r : α) :
    ∀ l : List α, (insertLE le r l).Perm (r :: l) := by
  intro l
  induction l with
  | nil => simp [insertLE]
  | cons y ys ih =>
    by_cases h : le y r
    · simp only [insertLE, h, if_true]
      exact (ih.cons y).trans (List.Perm.swap r y ys)
    · simp [insertLE, h]

theorem sortLE_perm_aux {α : Type} (le : α → α → Bool) :
    ∀ (l acc : List α), (l.foldl (fun a r => insertLE le r a) acc).Perm (acc ++ l) := by
  intro l
  induction l with
  | nil => intro acc; simp
  | cons y ys ih =>
    intro acc
    rw [List.foldl_cons]
    have h1 := ih (insertLE le y acc)
    have h2 : (insertLE le y acc ++ ys).Perm ((y :: acc) ++ ys) :=
      (insertLE_perm le y acc).append_right ys
    have h3 : ((y :: acc) ++ ys).Perm (acc ++ y :: ys) := List.perm_middle.symm
    exact (h1.trans h2).trans h3

theorem sortLE_perm {α : Type} (le : α → α → Bool) (l : List α) :
    (sortLE le l).Perm l := by
  simpa using sortLE_perm_aux le l []

theorem insertLE_pairwise {α : Type} {le : α → α → Bool}
    (htrans : ∀ a b c, le a b = true → le b c = true → le a c = true)
    (htot : ∀ a b, le a b = true ∨ le b a = true) (r : α) :
    ∀ l : List α, List.Pairwise (fun a b => le a b = true) l →
      List.Pairwise (fun a b => le a b = true) (insertLE le r l) := by
  intro l
  induction l with
  | nil => intro _; simp [insertLE]
  | cons y ys ih =>
    intro hp
    rcases List.pairwise_cons.mp hp with ⟨hy, hys⟩
    by_cases h : le y r
    · simp only [insertLE, h, if_true]
      refine List.pairwise_cons.mpr ⟨?_, ih hys⟩
      intro z hz
      rcases (mem_insertLE le r z ys).mp hz with rfl | hzys
      · exact h
      · exact hy z hzys
    · have hr : le r y = true := by
        rcases htot r y with h1 | h1
        · exact h1
        · exact absurd h1 h
      simp only [insertLE, h, if_false]
      refine List.pairwise_cons.mpr ⟨?_, hp⟩
      intro z hz
      rcases List.mem_cons.mp hz with rfl | hzys
      · exact hr
      · exact htrans r y z hr (hy z hzys)

theorem sortLE_pairwise_aux {α : Type} {le : α → α → Bool}
    (htrans : ∀ a b c, le a b = true → le b c = true → le a c = true)
    (htot : ∀ a b, le a b = true ∨ le b a = true) :
    ∀ (l acc : List α), List.Pairwise (fun a b => le a b = true) acc →
      List.Pairwise (fun a b => le a b = true) (l.foldl (fun a r => insertLE le r a) acc) := by
  intro l
  induction l with
  | nil => intro acc h; simpa using h
  | cons y ys ih =>
    intro acc h
    exact ih (insertLE le y acc) (insertLE_pairwise htrans htot y acc h)

theorem sortLE_pairwise {α : Type} {le : α → α → Bool}
    (htrans : ∀ a b c, le a b = true → le b c = true → le a c = true)
    (htot : ∀ a b, le a b = true ∨ le b a = true) (l : List α) :
    List.Pairwise (fun a b => le a b = true) (sortLE le l) :=
  sortLE_pairwise_aux htrans htot l [] List.Pairwise.nil

theorem raceKeyLE_trans (a b c : Race) :
    raceKeyLE a b = true → raceKeyLE b c = true → raceKeyLE a c = true := by
  simp only [raceKeyLE, Bool.or_eq_true, Bool.and_eq_true, decide_eq_true_eq]
  omega

theorem raceKeyLE_total (a b : Race) : raceKeyLE a b = true ∨ raceKeyLE b a = true := by
  simp only [raceKeyLE, Bool.or_eq_true, Bool.and_eq_true, decide_eq_true_eq]
  omega

theorem sortRaces_perm (l : List Race) : (sortRaces l).Perm l := sortLE_perm raceKeyLE l

theorem sortRaces_pairwise (l : List Race) :
    List.Pairwise (fun a b => raceKeyLE a b = true) (sortRaces l) :=
  sortLE_pairwise raceKeyLE_trans raceKeyLE_total l

/-- Every element of the prefix before position `i` of a sorted list is
`le` the element at position `i`. -/
theorem pairwise_take_le {α : Type} {le : α → α → Bool} {l : List α}
    (hp : List.Pairwise (fun a b => le a b = true) l) (i : Nat) (hi : i < l.length)
    {r : α} (hr : r ∈ l.take i) : le r (l.get ⟨i, hi⟩) = true := by
  rw [List.mem_iff_getElem] at hr
  rcases hr with ⟨j, hj, hje⟩
  have hjlen : j < i := by
    have := hj
    simp only [List.length_take] at this
    omega
  have hjl : j < l.length := Nat.lt_trans hjlen hi
  have hg : (l.take i)[j] = l[j] := List.getElem_take l
  rw [hg] at hje
  have := List.pairwise_iff_getElem.mp hp j i hjl hi hjlen
  simpa [hje] using this

/-! ## Concrete records for witnesses and counterexamples -/

/-- Build a participation record with the fields the pipeline computes
with; the remaining payload fields are fixed plausible strings. -/
def mkRace (hid : String) (ri : Int) (d : Int) (season jockey pla : String) : Race :=
  { horse_id := hid, race_index := ri, date := d, season := season, racecourse := "ST"
    track := "Turf", course := "A", dist := "1200", g := "G", race_class := "4", dr := "1"
    rtg := "60", trainer := "T", jockey := jockey, act_wt := "120", declar_horse_wt := "1000"
    gear := "B", pla := pla, lbw := "-", running_position := "1", finish_time := "1.09"
    win_odds := "5.0" }

/-- Horse H1 wins race 1 on day 0 under jockey J1. -/
def raceA : Race := mkRace "H1" 1 0 "S" "J1" "01"

/-- Horse H1 places second in race 1 on day 5 under jockey J1. -/
def raceB : Race := mkRace "H1" 1 5 "S" "J1" "02"

/-- Prior history matching the specification example: placement codes
"01", "03", "05" on three distinct earlier days. -/
def prior01 : Race := mkRace "H1" 1 0 "S" "J1" "01"

/-- Second record of the specification-example history (code "03"). -/
def prior03 : Race := mkRace "H1" 2 1 "S" "J1" "03"

/-- Third record of the specification-example history (code "05"). -/
def prior05 : Race := mkRace "H1" 3 2 "S" "J1" "05"

/-- A withdrawal-style sentinel record (placement code "WV"). -/
def sentinelWV : Race := mkRace "H1" 4 3 "S" "J1" "WV"

/-- First of two simultaneous records: same (date, race_index) as
`simB`, different horse, same jockey J9. -/
def simA : Race := mkRace "H1" 3 10 "S" "J9" "01"

/-- Second simultaneous record: shares (date, race_index) and jockey J9
with `simA` but belongs to a different horse. -/
def simB : Race := mkRace "H2" 3 10 "S" "J9" "05"

/-- A record simultaneous with `simA` but with a distinct horse and a
distinct jockey. -/
def simC : Race := mkRace "H3" 3 10 "S" "J8" "04"

/-- An earlier record for horse H3 and jockey J8 (day 0). -/
def earlyC : Race := mkRace "H3" 1 0 "S" "J8" "02"

open HorseRacingVariableCreator

/-! ## Auxiliary projection lemmas -/

theorem applyJockey_days (rs : RaceWithStats) (jp : List Race) :
    (applyJockey rs jp).days_since_last_run = rs.days_since_last_run := by
  cases jp <;> rfl

theorem enrichPure_days_nil (jp : List Race) (r : Race) :
    (enrichPure [] jp r).days_since_last_run = 0 := by
  simp [enrichPure, applyHorse, applyJockey_days, RaceWithStats.mkDefault]

theorem enrichPure_days_cons (a : Race) (t jp : List Race) (r : Race) :
    (enrichPure (a :: t) jp r).days_since_last_run =
      r.date - ((a :: t).getLast (List.cons_ne_nil a t)).date := by
  simp [enrichPure, applyHorse, horseStats, applyJockey_days, RaceWithStats.mkDefault]

theorem enrichPure_jokey (hp jp : List Race) (r : Race) (hjp : jp ≠ []) :
    (enrichPure hp jp r).jokey_num_races_run =
      jp.countP (fun x => x.season = r.season) := by
  cases jp with
  | nil => exact absurd rfl hjp
  | cons a t =>
    have hs : (applyHorse (RaceWithStats.mkDefault r) hp).season = r.season := by
      rw [show (applyHorse (RaceWithStats.mkDefault r) hp).season =
        (applyHorse (RaceWithStats.mkDefault r) hp).toRace.season from rfl, applyHorse_toRace]
      rfl
    simp [enrichPure, applyJockey, hs]

/-- Lexicographic comparison on (date, race_index, horse_id): the output
sort key named by the determinism property. -/
def enrichedKeyLE (a b : RaceWithStats) : Bool :=
  a.date < b.date || (a.date = b.date &&
    (a.race_index < b.race_index || (a.race_index = b.race_index &&
      decide (a.horse_id ≤ b.horse_id))))

/-! ## Claim theorems -/

/-- C1.  The spec claims `compute_derived_variables` returns one enriched
record per input record.  The loop never appends to `enhanced_races`, so
the returned list is empty for every input; at the concrete one-record
input the output length is 0 while the input length is 1. -/
theorem c1_driver_output_always_empty :
    (∀ races : List Race,
      (compute_derived_variables races).map (fun p => p.2.length) = some 0) ∧
    (compute_derived_variables [raceA]).map (fun p => p.2.length) = some 0 ∧
    ([raceA] : List Race).length = 1 := by
  have h : ∀ races : List Race,
      (compute_derived_variables races).map (fun p => p.2.length) = some 0 := by
    intro races
    rw [compute_derived_variables_eq]
    simp [runState_enhanced_races, DriverState.empty]
  exact ⟨h, h [raceA], rfl⟩

/-- C3.  A record whose entity has an empty prior history has every
history-dependent creator skipped (the guarded pass returns the record
unchanged), its statistics remain at the constructor defaults, and the
whole driver never raises (in particular no division by zero). -/
theorem c3_empty_history_defaults (rs : RaceWithStats) (race : Race) (races : List Race)
    (hp jp : List Race) (hhp : hp = []) (hjp : jp = []) :
    runCreators variable_creators rs hp = some rs ∧
    runCreators jockey_variable_creators rs jp = some rs ∧
    enrichPure hp jp race = RaceWithStats.mkDefault race ∧
    (compute_derived_variables races).isSome := by
  subst hhp; subst hjp
  refine ⟨runCreators_nil_history _ rs, runCreators_nil_history _ rs, rfl, ?_⟩
  rw [compute_derived_variables_eq]; rfl

/-- Witness for C3 at a concrete record and input list. -/
theorem c3_empty_history_defaults_witness :
    runCreators variable_creators (RaceWithStats.mkDefault raceA) [] =
      some (RaceWithStats.mkDefault raceA) ∧
    runCreators jockey_variable_creators (RaceWithStats.mkDefault raceA) [] =
      some (RaceWithStats.mkDefault raceA) ∧
    enrichPure [] [] raceA = RaceWithStats.mkDefault raceA ∧
    (compute_derived_variables [raceA, raceB]).isSome :=
  c3_empty_history_defaults (RaceWithStats.mkDefault raceA) raceA [raceA, raceB] [] [] rfl rfl

/-- C6.  Determinism under permutation of the input: the driver output,
sorted by (date, race_index, horse_id), is the same for any two
permutations of the same record list.  This holds because the returned
`enhanced_races` list is empty for every input (see C1), so both sorted
outputs are the empty list. -/
theorem c6_permutation_determinism (l1 l2 : List Race) (hperm : l1.Perm l2) :
    (compute_derived_variables l1).map (fun p => sortLE enrichedKeyLE p.2) =
    (compute_derived_variables l2).map (fun p => sortLE enrichedKeyLE p.2) := by
  rw [compute_derived_variables_eq, compute_derived_variables_eq]
  simp [runState_enhanced_races, DriverState.empty]

/-- Witness for C6 at a two-element list and its swap. -/
theorem c6_permutation_determinism_witness :
    (compute_derived_variables [raceA, raceB]).map (fun p => sortLE enrichedKeyLE p.2) =
    (compute_derived_variables [raceB, raceA]).map (fun p => sortLE enrichedKeyLE p.2) :=
  c6_permutation_determinism [raceA, raceB] [raceB, raceA] (List.Perm.swap raceB raceA [])

/-- C9.  Monotonicity of total runs: re-running the run-count creator
(under the driver's emptiness guard) on a history extended by one more
record never yields a smaller `num_races_run`. -/
theorem c9_total_runs_monotone (r : Race) (H : List Race) (x : Race) :
    ((runCreators [_compute_num_races_run] (RaceWithStats.mkDefault r) H).getD
        (RaceWithStats.mkDefault r)).num_races_run ≤
    ((runCreators [_compute_num_races_run] (RaceWithStats.mkDefault r) (H ++ [x])).getD
        (RaceWithStats.mkDefault r)).num_races_run := by
  cases H with
  | nil => simp [runCreators, _compute_num_races_run, RaceWithStats.mkDefault]
  | cons a t =>
    simp [runCreators, _compute_num_races_run, List.length_append]

/-- C10.  The driver sorts the caller's list in place: after the call the
caller's list is the stable sort of the original by (date, race_index)
ascending — a permutation of the original records (fields untouched),
pairwise ordered by the sort key. -/
theorem c10_input_sorted_in_place (races : List Race) :
    (compute_derived_variables races).map Prod.fst = some (sortRaces races) ∧
    (sortRaces races).Perm races ∧
    List.Pairwise (fun a b => raceKeyLE a b = true) (sortRaces races) := by
  refine ⟨?_, sortRaces_perm races, sortRaces_pairwise races⟩
  rw [compute_derived_variables_eq]; rfl

/-- C2.  For a non-empty history the run-count creator sets total runs to
|H|, the top-1/2/3 counters to c1, c1+c2, c1+c2+c3 (counting only exact
codes "01"/"02"/"03"), and the rates to those counts divided by |H|;
a record with a sentinel or non-placement code is still appended to the
history by the driver step, yet contributes 0 to every top count. -/
theorem c2_run_count_and_rates (rs : RaceWithStats) (H : List Race) (hH : H ≠ [])
    (x : Race) (hx1 : x.pla ≠ "01") (hx2 : x.pla ≠ "02") (hx3 : x.pla ≠ "03")
    (s : DriverState) :
    (_compute_num_races_run rs H).map (fun out => out.num_races_run) = some H.length ∧
    (_compute_num_races_run rs H).map (fun out => out.num_races_top1) =
      some (H.countP (fun r => r.pla = "01")) ∧
    (_compute_num_races_run rs H).map (fun out => out.num_races_top2) =
      some (H.countP (fun r => r.pla = "01") + H.countP (fun r => r.pla = "02")) ∧
    (_compute_num_races_run rs H).map (fun out => out.num_races_top3) =
      some (H.countP (fun r => r.pla = "01") + H.countP (fun r => r.pla = "02") +
        H.countP (fun r => r.pla = "03")) ∧
    (_compute_num_races_run rs H).map (fun out => out.percent_races_top1) =
      some ((H.countP (fun r => r.pla = "01") : Rat) / (H.length : Rat)) ∧
    (_compute_num_races_run rs H).map (fun out => out.percent_races_top2) =
      some (((H.countP (fun r => r.pla = "01") : Rat) +
        (H.countP (fun r => r.pla = "02") : Rat)) / (H.length : Rat)) ∧
    (_compute_num_races_run rs H).map (fun out => out.percent_races_top3) =
      some (((H.countP (fun r => r.pla = "01") : Rat) +
        (H.countP (fun r => r.pla = "02") : Rat) +
        (H.countP (fun r => r.pla = "03") : Rat)) / (H.length : Rat)) ∧
    (stepState s x).horse_races_map x.horse_id = s.horse_races_map x.horse_id ++ [x] ∧
    (H ++ [x]).countP (fun r => r.pla = "01") = H.countP (fun r => r.pla = "01") ∧
    (H ++ [x]).countP (fun r => r.pla = "02") = H.countP (fun r => r.pla = "02") ∧
    (H ++ [x]).countP (fun r => r.pla = "03") = H.countP (fun r => r.pla = "03") := by
  have hlen : ¬ H.length = 0 := fun h => hH (List.length_eq_zero.mp h)
  refine ⟨?_, ?_, ?_, ?_, ?_, ?_, ?_, ?_, ?_, ?_, ?_⟩ <;>
    simp [_compute_num_races_run, hlen, stepState, mapAppend,
      List.countP_append, List.countP_cons, hx1, hx2, hx3]

/-- Witness for C2 at the specification's own example history
("01", "03", "05") and a sentinel record "WV". -/
theorem c2_run_count_and_rates_witness :
    (_compute_num_races_run (RaceWithStats.mkDefault raceB)
        [prior01, prior03, prior05]).map (fun out => out.num_races_run) = some 3 ∧
    (_compute_num_races_run (RaceWithStats.mkDefault raceB)
        [prior01, prior03, prior05]).map (fun out => out.num_races_top1) = some 1 ∧
    (_compute_num_races_run (RaceWithStats.mkDefault raceB)
        [prior01, prior03, prior05]).map (fun out => out.num_races_top2) = some 1 ∧
    (_compute_num_races_run (RaceWithStats.mkDefault raceB)
        [prior01, prior03, prior05]).map (fun out => out.num_races_top3) = some 2 ∧
    (_compute_num_races_run (RaceWithStats.mkDefault raceB)
        [prior01, prior03, prior05]).map (fun out => out.percent_races_top1) =
      some ((1 : Rat) / 3) ∧
    (_compute_num_races_run (RaceWithStats.mkDefault raceB)
        [prior01, prior03, prior05]).map (fun out => out.percent_races_top3) =
      some ((2 : Rat) / 3) ∧
    ([prior01, prior03, prior05, sentinelWV] : List Race).countP
      (fun r => r.pla = "01") = 1 := by
  obtain ⟨h1, h2, h3, h4, h5, h6, h7, h8, h9, h10, h11⟩ :=
    c2_run_count_and_rates (RaceWithStats.mkDefault raceB) [prior01, prior03, prior05]
      (by decide) sentinelWV (by decide) (by decide) (by decide) DriverState.empty
  have e1 : (([prior01, prior03, prior05] : List Race).countP
      (fun r => r.pla = "01")) = 1 := by decide
  have e2 : (([prior01, prior03, prior05] : List Race).countP
      (fun r => r.pla = "02")) = 0 := by decide
  have e3 : (([prior01, prior03, prior05] : List Race).countP
      (fun r => r.pla = "03")) = 1 := by decide
  have el : ([prior01, prior03, prior05] : List Race).length = 3 := rfl
  rw [e1] at h2 h3 h4 h5 h7
  rw [e2] at h3 h4 h7
  rw [e3] at h4 h7
  rw [el] at h1 h5 h7
  refine ⟨h1, h2, by simpa using h3, by simpa using h4, ?_, ?_, ?_⟩
  · refine h5.trans ?_
    norm_num
  · refine h7.trans ?_
    norm_num
  · have := h9
    rw [show ([prior01, prior03, prior05] : List Race) ++ [sentinelWV] =
      [prior01, prior03, prior05, sentinelWV] from rfl] at this
    rw [this, e1]

/-- C4.  No-lookahead: the `i`-th enriched record of the driver's pass is
a function of the `i`-th sorted record and the records strictly before
position `i` alone (its horse history is the horse-id filter of the
prefix before `i`, its jockey history the jockey filter), so the history
used for a record never contains that record and no statistic depends on
the record's own outcome or on any later-sorted record. -/
theorem c4_no_lookahead (races : List Race) (i : Nat) (cur : Race)
    (hcur : (sortRaces races)[i]? = some cur) :
    (enrichedTrace races).bind (fun t => t[i]?) =
      some (enrichPure
        (((sortRaces races).take i).filter (fun r => r.horse_id = cur.horse_id))
        (((sortRaces races).take i).filter (fun r => r.jockey = cur.jockey))
        cur) := by
  rcases List.getElem?_eq_some_iff.mp hcur with ⟨hi, hieq⟩
  rw [enrichedTrace_eq, Option.some_bind, traceFrom_getElem _ _ i hi]
  have hget : (sortRaces races).get ⟨i, hi⟩ = cur := by
    rw [List.get_eq_getElem]; exact hieq
  rw [hget, enrichStats, runState_horse_map, runState_jockey_map]
  simp [DriverState.empty]

/-- Witness for C4: the second sorted record of a two-record input for
the same horse and jockey. -/
theorem c4_no_lookahead_witness :
    (enrichedTrace [raceA, raceB]).bind (fun t => t[1]?) =
      some (enrichPure
        (((sortRaces [raceA, raceB]).take 1).filter (fun r => r.horse_id = raceB.horse_id))
        (((sortRaces [raceA, raceB]).take 1).filter (fun r => r.jockey = raceB.jockey))
        raceB) :=
  c4_no_lookahead [raceA, raceB] 1 raceB (by decide)

/-- C7.  The jockey run count is computed from the separate history keyed
by the record's jockey id, and for a non-empty jockey history it equals
the number of prior entries of that jockey whose season equals the
current record's season. -/
theorem c7_jockey_seasonal_count (races : List Race) (i : Nat) (cur : Race)
    (hcur : (sortRaces races)[i]? = some cur)
    (hne : ((sortRaces races).take i).filter (fun r => r.jockey = cur.jockey) ≠ []) :
    (enrichedTrace races).bind (fun t => t[i]?.map (fun out => out.jokey_num_races_run)) =
      some ((((sortRaces races).take i).filter (fun r => r.jockey = cur.jockey)).countP
        (fun r => r.season = cur.season)) := by
  rcases List.getElem?_eq_some_iff.mp hcur with ⟨hi, hieq⟩
  rw [enrichedTrace_eq, Option.some_bind, traceFrom_getElem _ _ i hi]
  have hget : (sortRaces races).get ⟨i, hi⟩ = cur := by
    rw [List.get_eq_getElem]; exact hieq
  rw [hget, enrichStats, runState_horse_map, runState_jockey_map]
  simp only [DriverState.empty, List.nil_append, Option.map_some']
  rw [enrichPure_jokey _ _ _ hne]

/-- Witness for C7: two simultaneous records sharing jockey J9. -/
theorem c7_jockey_seasonal_count_witness :
    (enrichedTrace [simA, simB]).bind (fun t => t[1]?.map (fun out => out.jokey_num_races_run)) =
      some ((((sortRaces [simA, simB]).take 1).filter (fun r => r.jockey = simB.jockey)).countP
        (fun r => r.season = simB.season)) :=
  c7_jockey_seasonal_count [simA, simB] 1 simB (by decide) (by decide)

/-- C8.  Recency: on a non-empty history the creator sets
days_since_last_run to current date minus the date of the last (most
recent) history entry, stores the log1p and square-root transforms of
that value, is skipped on an empty history, and every record enriched by
the driver has a non-negative days_since_last_run (the sorted replay
makes every history date at most the current date). -/
theorem c8_recency (rs : RaceWithStats) (H : List Race) (hH : H ≠ []) (races : List Race) :
    (_compute_days_since_last_run rs H).map (fun out => out.days_since_last_run) =
      some (rs.date - (H.getLast hH).date) ∧
    (_compute_days_since_last_run rs H).map (fun out => out.days_since_last_run_log) =
      some (PyFloat.log1p (rs.date - (H.getLast hH).date)) ∧
    (_compute_days_since_last_run rs H).map (fun out => out.days_since_last_run_sqrt) =
      some (PyFloat.sqrt (rs.date - (H.getLast hH).date)) ∧
    runCreators variable_creators rs [] = some rs ∧
    (∀ t, enrichedTrace races = some t → ∀ out ∈ t, 0 ≤ out.days_since_last_run) := by
  refine ⟨?_, ?_, ?_, runCreators_nil_history _ rs, ?_⟩
  · simp [_compute_days_since_last_run, List.getLast?_eq_getLast_of_ne_nil hH]
  · simp [_compute_days_since_last_run, List.getLast?_eq_getLast_of_ne_nil hH]
  · simp [_compute_days_since_last_run, List.getLast?_eq_getLast_of_ne_nil hH]
  · intro t ht out hout
    rw [enrichedTrace_eq] at ht
    have ht2 : t = traceFrom DriverState.empty (sortRaces races) := by
      exact (Option.some.inj ht).symm
    subst ht2
    obtain ⟨i, hilen, hieq⟩ := List.mem_iff_getElem.mp hout
    have hlen2 : i < (sortRaces races).length := by
      rwa [traceFrom_length] at hilen
    have hidx := traceFrom_getElem (sortRaces races) DriverState.empty i hlen2
    rw [List.getElem?_eq_getElem hilen] at hidx
    have hval : out = enrichStats (runState DriverState.empty ((sortRaces races).take i))
        ((sortRaces races).get ⟨i, hlen2⟩) := by
      rw [← hieq]; exact Option.some.inj hidx
    rw [hval, enrichStats, runState_horse_map, runState_jockey_map]
    simp only [DriverState.empty, List.nil_append]
    set cur := (sortRaces races).get ⟨i, hlen2⟩ with hcurdef
    cases hfil : ((sortRaces races).take i).filter (fun r => r.horse_id = cur.horse_id) with
    | nil => rw [enrichPure_days_nil]
    | cons a tl =>
      rw [enrichPure_days_cons]
      have hmemfil : ((a :: tl).getLast (List.cons_ne_nil a tl)) ∈
          ((sortRaces races).take i).filter (fun r => r.horse_id = cur.horse_id) := by
        rw [hfil]; exact List.getLast_mem (List.cons_ne_nil a tl)
      have hmemtake : ((a :: tl).getLast (List.cons_ne_nil a tl)) ∈ (sortRaces races).take i :=
        (List.mem_filter.mp hmemfil).1
      have hle := pairwise_take_le (sortRaces_pairwise races) i hlen2 hmemtake
      rw [← hcurdef] at hle
      simp only [raceKeyLE, Bool.or_eq_true, Bool.and_eq_true, decide_eq_true_eq] at hle
      omega

/-- Witness for C8: history with one day-0 entry and a current record at
day 5, giving a gap of five days. -/
theorem c8_recency_witness :
    (_compute_days_since_last_run (RaceWithStats.mkDefault raceB) [raceA]).map
        (fun out => out.days_since_last_run) =
      some ((RaceWithStats.mkDefault raceB).date -
        ([raceA].getLast (List.cons_ne_nil raceA [])).date) ∧
    (_compute_days_since_last_run (RaceWithStats.mkDefault raceB) [raceA]).map
        (fun out => out.days_since_last_run_log) =
      some (PyFloat.log1p ((RaceWithStats.mkDefault raceB).date -
        ([raceA].getLast (List.cons_ne_nil raceA [])).date)) ∧
    (_compute_days_since_last_run (RaceWithStats.mkDefault raceB) [raceA]).map
        (fun out => out.days_since_last_run_sqrt) =
      some (PyFloat.sqrt ((RaceWithStats.mkDefault raceB).date -
        ([raceA].getLast (List.cons_ne_nil raceA [])).date)) ∧
    runCreators variable_creators (RaceWithStats.mkDefault raceB) [] =
      some (RaceWithStats.mkDefault raceB) ∧
    (∀ t, enrichedTrace [raceA, raceB] = some t → ∀ out ∈ t, 0 ≤ out.days_since_last_run) :=
  c8_recency (RaceWithStats.mkDefault raceB) [raceA] (List.cons_ne_nil raceA []) [raceA, raceB]

/-- C5 counterexample.  Two records share an identical (date, race_index)
key, belong to different horses, and are ridden by the same jockey J9.
The driver appends each record to the jockey history immediately after
processing it, so the second simultaneous record is enriched with a
jockey history containing the first — its jockey run count is 1, not the
0 that a history built only from strictly earlier races would give, and
the history used for it is the one-element list holding the simultaneous
record. -/
theorem c5_simultaneous_leak_counterexample :
    simA.date = simB.date ∧ simA.race_index = simB.race_index ∧
    simA.horse_id ≠ simB.horse_id ∧
    sortRaces [simA, simB] = [simA, simB] ∧
    (runState DriverState.empty ((sortRaces [simA, simB]).take 1)).jockey_races_map
      simB.jockey = [simA] ∧
    (enrichedTrace [simA, simB]).map (List.map (fun out => out.jokey_num_races_run)) =
      some [0, 1] := by
  exact ⟨rfl, rfl, by decide, by decide, by decide, by decide⟩

/-- C5 amended.  Simultaneous records leak into each other's histories
only through a shared horse id or jockey id: provided every record
sharing the current record's (date, race_index) key in the sorted prefix
has a different horse id and a different jockey id, the horse and jockey
histories used to enrich the current record are exactly the id-filtered
prefix and every record in them has a strictly earlier
(date, race_index). -/
theorem c5_strictly_earlier_when_ids_distinct (races : List Race) (i : Nat) (cur : Race)
    (hcur : (sortRaces races)[i]? = some cur)
    (hdist : ∀ prev ∈ (sortRaces races).take i,
      prev.date = cur.date ∧ prev.race_index = cur.race_index →
      prev.horse_id ≠ cur.horse_id ∧ prev.jockey ≠ cur.jockey) :
    (runState DriverState.empty ((sortRaces races).take i)).horse_races_map cur.horse_id =
      ((sortRaces races).take i).filter (fun r => r.horse_id = cur.horse_id) ∧
    (runState DriverState.empty ((sortRaces races).take i)).jockey_races_map cur.jockey =
      ((sortRaces races).take i).filter (fun r => r.jockey = cur.jockey) ∧
    (∀ r ∈ ((sortRaces races).take i).filter (fun x => x.horse_id = cur.horse_id),
        raceKeyLT r cur = true) ∧
    (∀ r ∈ ((sortRaces races).take i).filter (fun x => x.jockey = cur.jockey),
        raceKeyLT r cur = true) := by
  obtain ⟨hi, hieq⟩ := List.getElem?_eq_some_iff.mp hcur
  have hget : (sortRaces races).get ⟨i, hi⟩ = cur := by
    rw [List.get_eq_getElem]; exact hieq
  refine ⟨by rw [runState_horse_map]; simp [DriverState.empty],
    by rw [runState_jockey_map]; simp [DriverState.empty], ?_, ?_⟩
  · intro r hr
    obtain ⟨hmem, hprop⟩ := List.mem_filter.mp hr
    have hle := pairwise_take_le (sortRaces_pairwise races) i hi hmem
    rw [hget] at hle
    by_cases hk : r.date = cur.date ∧ r.race_index = cur.race_index
    · exact absurd (of_decide_eq_true hprop) (hdist r hmem hk).1
    · simp only [raceKeyLE, Bool.or_eq_true, Bool.and_eq_true, decide_eq_true_eq] at hle
      simp only [raceKeyLT, Bool.or_eq_true, Bool.and_eq_true, decide_eq_true_eq]
      omega
  · intro r hr
    obtain ⟨hmem, hprop⟩ := List.mem_filter.mp hr
    have hle := pairwise_take_le (sortRaces_pairwise races) i hi hmem
    rw [hget] at hle
    by_cases hk : r.date = cur.date ∧ r.race_index = cur.race_index
    · exact absurd (of_decide_eq_true hprop) (hdist r hmem hk).2
    · simp only [raceKeyLE, Bool.or_eq_true, Bool.and_eq_true, decide_eq_true_eq] at hle
      simp only [raceKeyLT, Bool.or_eq_true, Bool.and_eq_true, decide_eq_true_eq]
      omega

/-- Witness for the amended C5: a record simultaneous with another of a
different horse and different jockey, with one genuinely earlier record
for its own horse and jockey. -/
theorem c5_strictly_earlier_when_ids_distinct_witness :
    (runState DriverState.empty ((sortRaces [earlyC, simA, simC]).take 2)).horse_races_map
      simC.horse_id =
      ((sortRaces [earlyC, simA, simC]).take 2).filter (fun r => r.horse_id = simC.horse_id) ∧
    (runState DriverState.empty ((sortRaces [earlyC, simA, simC]).take 2)).jockey_races_map
      simC.jockey =
      ((sortRaces [earlyC, simA, simC]).take 2).filter (fun r => r.jockey = simC.jockey) ∧
    (∀ r ∈ ((sortRaces [earlyC, simA, simC]).take 2).filter
        (fun x => x.horse_id = simC.horse_id), raceKeyLT r simC = true) ∧
    (∀ r ∈ ((sortRaces [earlyC, simA, simC]).take 2).filter
        (fun x => x.jockey = simC.jockey), raceKeyLT r simC = true) :=
  c5_strictly_earlier_when_ids_distinct [earlyC, simA, simC] 2 simC (by decide) (by decide)
